import Mathlib

/-!
Shallow embedding of the Smart-Face-Attendance-System repository
(`main_improved.py`, `main_simplified.py`, `web_register.py`,
`student_db.py`, `student_db_improved.py`) and proofs about the
claims on its attendance-marking, registration, training, storage,
recognition and cooldown logic.
-/

namespace FaceAttendance

/-- One row of an attendance CSV table, holding the three tracked
fields `Name`, `Time`, `Date` (as the strings the scripts write). -/
structure Row where
  name : String
  time : String
  date : String
deriving DecidableEq

/-- The observable state of a ledger CSV file on disk, as seen by
`pd.read_csv`: the file may be missing (`FileNotFoundError`), raise some
other parsing exception, or parse to a table with a column header and
data rows. -/
inductive LedgerFile where
  | missing : LedgerFile
  | unreadable : LedgerFile
  | table : List String → List Row → LedgerFile
deriving DecidableEq

/-- The `expected_columns = ["Name", "Time", "Date"]` list from
`mark_attendance` in `main_improved.py` / `main_simplified.py`. -/
def expectedColumns : List String := ["Name", "Time", "Date"]

/-- The check `all(col in df.columns for col in expected_columns)`. -/
def hasExpectedColumns (header : List String) : Bool :=
  expectedColumns.all (fun c => header.contains c)

/-- The parts of `datetime.now()` that `mark_attendance` uses: the hour
(for the late cutoff) and the formatted time and date strings. -/
structure Timestamp where
  hour : Nat
  timeStr : String
  dateStr : String
deriving DecidableEq

/-- The three possible outcomes reported by `mark_attendance`. -/
inductive Outcome where
  | alreadyMarked : Outcome
  | markedLate : Outcome
  | markedOnTime : Outcome
deriving DecidableEq

/-- The two files `mark_attendance` touches: the main attendance CSV
and the late-attendance CSV. -/
structure MarkState where
  main : LedgerFile
  late : LedgerFile
deriving DecidableEq

/-- The duplicate check `df[(df['Date'] == current_date) & (df['Name'] == name)]`
being non-empty (`main_improved.py` line 151); `main_simplified.py` lines
115-116 filter by date first and then test name membership, which is the
same condition. -/
def markedToday (rows : List Row) (name date : String) : Bool :=
  rows.any (fun r => r.date == date && r.name == name)

/-- The first phase of `mark_attendance` (lines 140-162 of
`main_improved.py`): read the main CSV; on a missing or unreadable file,
or on a header missing one of the expected columns, write a fresh empty
table with header `Name,Time,Date`; on a well-formed table holding a row
for (name, today), return early (`none` here).  The result `some (h, r)`
is the header and rows of the main file as it stands when the function
proceeds to the append phase. -/
def mainAfterFormatCheck : LedgerFile → String → String → Option (List String × List Row)
  | LedgerFile.table header rows, name, date =>
      if hasExpectedColumns header then
        if markedToday rows name date then none
        else some (header, rows)
      else some (expectedColumns, [])
  | LedgerFile.missing, _, _ => some (expectedColumns, [])
  | LedgerFile.unreadable, _, _ => some (expectedColumns, [])

/-- How the late-ledger file is loaded in the late branch (lines 184-191
of `main_improved.py`): a missing or unreadable file, or one whose header
lacks an expected column, is replaced by an empty correctly-headed table. -/
def normalizeLate : LedgerFile → List String × List Row
  | LedgerFile.table header rows =>
      if hasExpectedColumns header then (header, rows)
      else (expectedColumns, [])
  | LedgerFile.missing => (expectedColumns, [])
  | LedgerFile.unreadable => (expectedColumns, [])

/-- The fixed late cutoff: `is_late = current_time.hour >= 9`. -/
def lateCutoffHour : Nat := 9

/-- The `new_entry` row built from the name and the current time/date. -/
def newEntry (name : String) (now : Timestamp) : Row :=
  { name := name, time := now.timeStr, date := now.dateStr }

/-- Shallow embedding of `mark_attendance(name, csv_file, late_file)`
from `main_improved.py` lines 131-197 (the `main_simplified.py` version,
lines 92-161, has the same semantics on this state).  The function
either returns early with the already-marked message, or appends the new
entry to the (possibly just re-created) main table, and additionally to
the late table when the hour is at or past the cutoff. -/
def markAttendance (name : String) (now : Timestamp) (s : MarkState) :
    MarkState × Outcome :=
  match mainAfterFormatCheck s.main name now.dateStr with
  | none => (s, Outcome.alreadyMarked)
  | some (header, rows) =>
      let row := newEntry name now
      let mainAfter := LedgerFile.table header (rows ++ [row])
      if lateCutoffHour ≤ now.hour then
        let l := normalizeLate s.late
        ({ main := mainAfter, late := LedgerFile.table l.1 (l.2 ++ [row]) },
          Outcome.markedLate)
      else
        ({ main := mainAfter, late := s.late }, Outcome.markedOnTime)

/-- A ledger table has no two rows for the same (name, date) pair. -/
def ledgerNoDup : LedgerFile → Prop
  | LedgerFile.table _ rows => (rows.map fun r => (r.name, r.date)).Nodup
  | _ => True

lemma markAttendance_of_none {name : String} {now : Timestamp} {s : MarkState}
    (h : mainAfterFormatCheck s.main name now.dateStr = none) :
    markAttendance name now s = (s, Outcome.alreadyMarked) := by
  simp [markAttendance, h]

lemma markAttendance_main_of_some {name : String} {now : Timestamp}
    {s : MarkState} {hd : List String} {rs : List Row}
    (h : mainAfterFormatCheck s.main name now.dateStr = some (hd, rs)) :
    (markAttendance name now s).1.main
      = LedgerFile.table hd (rs ++ [newEntry name now]) := by
  by_cases hh : lateCutoffHour ≤ now.hour <;>
    simp [markAttendance, h, hh]

lemma markAttendance_late_branch {name : String} {now : Timestamp}
    {s : MarkState} {hd : List String} {rs : List Row}
    (h : mainAfterFormatCheck s.main name now.dateStr = some (hd, rs))
    (hh : lateCutoffHour ≤ now.hour) :
    (markAttendance name now s).1.late
        = LedgerFile.table (normalizeLate s.late).1
            ((normalizeLate s.late).2 ++ [newEntry name now])
      ∧ (markAttendance name now s).2 = Outcome.markedLate := by
  simp [markAttendance, h, hh]

lemma markAttendance_ontime_branch {name : String} {now : Timestamp}
    {s : MarkState} {hd : List String} {rs : List Row}
    (h : mainAfterFormatCheck s.main name now.dateStr = some (hd, rs))
    (hh : now.hour < lateCutoffHour) :
    (markAttendance name now s).1.late = s.late
      ∧ (markAttendance name now s).2 = Outcome.markedOnTime := by
  simp [markAttendance, h, Nat.not_le.mpr hh]

/-- Inversion for the append phase: when `mark_attendance` proceeds past
the duplicate check, the rows it will append to are either empty (the
file was missing, unreadable, or mis-headed and has been replaced) or
the original well-formed rows free of a (name, today) entry. -/
lemma mainAfterFormatCheck_some_inv {f : LedgerFile} {name date : String}
    {hd : List String} {rs : List Row}
    (h : mainAfterFormatCheck f name date = some (hd, rs)) :
    rs = [] ∨ (f = LedgerFile.table hd rs ∧ hasExpectedColumns hd = true
      ∧ markedToday rs name date = false) := by
  cases f with
  | missing => simp [mainAfterFormatCheck] at h; exact Or.inl h.2
  | unreadable => simp [mainAfterFormatCheck] at h; exact Or.inl h.2
  | table header rows =>
      by_cases hc : hasExpectedColumns header
      · by_cases hm : markedToday rows name date
        · simp [mainAfterFormatCheck, hc, hm] at h
        · simp [mainAfterFormatCheck, hc, hm] at h
          obtain ⟨h1, h2⟩ := h
          subst h1; subst h2
          exact Or.inr ⟨rfl, hc, Bool.eq_false_iff.mpr hm⟩
      · simp [mainAfterFormatCheck, hc] at h
        exact Or.inl h.2

lemma not_markedToday_notMem {rows : List Row} {name date : String}
    (h : markedToday rows name date = false) :
    (name, date) ∉ rows.map fun r => (r.name, r.date) := by
  intro hmem
  rcases List.mem_map.mp hmem with ⟨r, hr, hEq⟩
  have h1 : r.name = name := congrArg Prod.fst hEq
  have h2 : r.date = date := congrArg Prod.snd hEq
  have : markedToday rows name date = true := by
    apply List.any_eq_true.mpr
    exact ⟨r, hr, by simp [h1, h2]⟩
  simp [this] at h

/-- Claim C1: if a row with the given name and the current date already
exists in a well-formed main ledger, `mark_attendance` returns the
already-marked outcome and changes nothing; and, as a consequence, one
sequential call preserves the invariant that the main ledger has at most
one row per (name, date) pair. -/
theorem mark_already_marked_no_duplicate :
    (∀ (name : String) (now : Timestamp) (s : MarkState)
        (header : List String) (rows : List Row),
        s.main = LedgerFile.table header rows →
        hasExpectedColumns header = true →
        markedToday rows name now.dateStr = true →
        markAttendance name now s = (s, Outcome.alreadyMarked))
    ∧ (∀ (name : String) (now : Timestamp) (s : MarkState),
        ledgerNoDup s.main → ledgerNoDup (markAttendance name now s).1.main) := by
  constructor
  · intro name now s header rows hmain hcols hdup
    apply markAttendance_of_none
    simp [mainAfterFormatCheck, hmain, hcols, hdup]
  · intro name now s hnd
    cases h : mainAfterFormatCheck s.main name now.dateStr with
    | none => rw [markAttendance_of_none h]; exact hnd
    | some p =>
        obtain ⟨hd, rs⟩ := p
        rw [markAttendance_main_of_some h]
        rcases mainAfterFormatCheck_some_inv h with hrs | ⟨hf, _, hmt⟩
        · subst hrs; simp [ledgerNoDup, newEntry]
        · have hnd' : (rs.map fun r => (r.name, r.date)).Nodup := by
            rw [hf] at hnd; exact hnd
          have hnotin := not_markedToday_notMem hmt
          simp only [ledgerNoDup, List.map_append, List.map_cons, List.map_nil]
          exact List.Nodup.append hnd' (List.nodup_singleton _)
            (by simpa [List.disjoint_singleton, newEntry] using hnotin)

/-- Claim C1 witness: with "Alice" already recorded for 01-01-2024, a
second call the same day is a no-op; and no-duplicate is preserved. -/
theorem mark_already_marked_no_duplicate_witness :
    markAttendance "Alice" ⟨10, "09:30:00", "01-01-2024"⟩
        ⟨LedgerFile.table ["Name", "Time", "Date"]
            [⟨"Alice", "08:00:00", "01-01-2024"⟩], LedgerFile.missing⟩
      = (⟨LedgerFile.table ["Name", "Time", "Date"]
            [⟨"Alice", "08:00:00", "01-01-2024"⟩], LedgerFile.missing⟩,
          Outcome.alreadyMarked)
    ∧ ledgerNoDup (markAttendance "Bob" ⟨10, "09:30:00", "01-01-2024"⟩
        ⟨LedgerFile.table ["Name", "Time", "Date"]
            [⟨"Alice", "08:00:00", "01-01-2024"⟩], LedgerFile.missing⟩).1.main :=
  ⟨mark_already_marked_no_duplicate.1 "Alice" ⟨10, "09:30:00", "01-01-2024"⟩
      _ _ _ rfl (by decide) (by decide),
    mark_already_marked_no_duplicate.2 "Bob" ⟨10, "09:30:00", "01-01-2024"⟩
      _ (by simp [ledgerNoDup])⟩

/-- A name has no row for the given date in the main ledger file. -/
def notMarkedToday (f : LedgerFile) (name date : String) : Prop :=
  ∀ (header : List String) (rows : List Row),
    f = LedgerFile.table header rows → markedToday rows name date = false

lemma mainAfterFormatCheck_of_notMarked {f : LedgerFile} {name date : String}
    (h : notMarkedToday f name date) :
    ∃ hd rs, mainAfterFormatCheck f name date = some (hd, rs) := by
  cases f with
  | missing => exact ⟨expectedColumns, [], rfl⟩
  | unreadable => exact ⟨expectedColumns, [], rfl⟩
  | table header rows =>
      by_cases hc : hasExpectedColumns header
      · exact ⟨header, rows, by simp [mainAfterFormatCheck, hc, h header rows rfl]⟩
      · exact ⟨expectedColumns, [], by simp [mainAfterFormatCheck, hc]⟩

/-- Claim C2: for a name not yet marked today, a call at or past the
late cutoff appends the new entry both to the main ledger and to the
late ledger, while a call before the cutoff appends only to the main
ledger and leaves the late ledger untouched. -/
theorem mark_late_cutoff_behaviour (name : String) (now : Timestamp)
    (s : MarkState) (hnm : notMarkedToday s.main name now.dateStr) :
    (lateCutoffHour ≤ now.hour →
        (markAttendance name now s).1.late
            = LedgerFile.table (normalizeLate s.late).1
                ((normalizeLate s.late).2 ++ [newEntry name now])
          ∧ ∃ hd rs, (markAttendance name now s).1.main
              = LedgerFile.table hd (rs ++ [newEntry name now]))
    ∧ (now.hour < lateCutoffHour →
        (markAttendance name now s).1.late = s.late
          ∧ ∃ hd rs, (markAttendance name now s).1.main
              = LedgerFile.table hd (rs ++ [newEntry name now])) := by
  obtain ⟨hd, rs, h⟩ := mainAfterFormatCheck_of_notMarked hnm
  constructor
  · intro hh
    exact ⟨(markAttendance_late_branch h hh).1,
      hd, rs, markAttendance_main_of_some h⟩
  · intro hh
    exact ⟨(markAttendance_ontime_branch h hh).1,
      hd, rs, markAttendance_main_of_some h⟩

/-- Claim C2 witness: marking "Alice" on an empty day at hour 10 appends
to both ledgers; marking "Bob" at hour 8 leaves the late ledger alone. -/
theorem mark_late_cutoff_behaviour_witness :
    ((markAttendance "Alice" ⟨10, "10:00:00", "02-01-2024"⟩
        ⟨LedgerFile.table ["Name", "Time", "Date"] [], LedgerFile.missing⟩).1.late
      = LedgerFile.table ["Name", "Time", "Date"]
          [⟨"Alice", "10:00:00", "02-01-2024"⟩])
    ∧ ((markAttendance "Bob" ⟨8, "08:00:00", "02-01-2024"⟩
        ⟨LedgerFile.table ["Name", "Time", "Date"] [], LedgerFile.missing⟩).1.late
      = LedgerFile.missing) := by
  have h1 := (mark_late_cutoff_behaviour "Alice" ⟨10, "10:00:00", "02-01-2024"⟩
      ⟨LedgerFile.table ["Name", "Time", "Date"] [], LedgerFile.missing⟩
      (by intro header rows hEq; cases hEq; decide)).1 (by decide)
  have h2 := (mark_late_cutoff_behaviour "Bob" ⟨8, "08:00:00", "02-01-2024"⟩
      ⟨LedgerFile.table ["Name", "Time", "Date"] [], LedgerFile.missing⟩
      (by intro header rows hEq; cases hEq; decide)).2 (by decide)
  exact ⟨by rw [h1.1]; rfl, h2.1⟩

/-- Claim C4: on a main ledger whose header lacks one of the expected
columns, `mark_attendance` does not fail: the format-check phase rewrites
the file to a fresh empty table headed exactly `Name,Time,Date`, and the
call then appends the new entry to that fresh table. -/
theorem mark_malformed_header_reset (name : String) (now : Timestamp)
    (header : List String) (rows : List Row) (late : LedgerFile)
    (hbad : hasExpectedColumns header = false) :
    mainAfterFormatCheck (LedgerFile.table header rows) name now.dateStr
        = some (expectedColumns, [])
    ∧ (markAttendance name now ⟨LedgerFile.table header rows, late⟩).1.main
        = LedgerFile.table expectedColumns [newEntry name now] := by
  have h : mainAfterFormatCheck (LedgerFile.table header rows) name now.dateStr
      = some (expectedColumns, []) := by
    simp [mainAfterFormatCheck, hbad]
  exact ⟨h, by simpa using
    markAttendance_main_of_some (s := ⟨LedgerFile.table header rows, late⟩) h⟩

/-- Claim C4 witness: a legacy two-column header is replaced and the new
entry lands in a fresh `Name,Time,Date` table. -/
theorem mark_malformed_header_reset_witness :
    mainAfterFormatCheck (LedgerFile.table ["Student", "When"] []) "Alice"
        (Timestamp.mk 8 "08:00:00" "03-01-2024").dateStr
        = some (expectedColumns, [])
    ∧ (markAttendance "Alice" ⟨8, "08:00:00", "03-01-2024"⟩
        ⟨LedgerFile.table ["Student", "When"] [], LedgerFile.missing⟩).1.main
        = LedgerFile.table expectedColumns
            [newEntry "Alice" ⟨8, "08:00:00", "03-01-2024"⟩] :=
  mark_malformed_header_reset "Alice" ⟨8, "08:00:00", "03-01-2024"⟩
    ["Student", "When"] [] LedgerFile.missing (by decide)

/-- Claim C9: on a well-formed main ledger (header exactly
`Name,Time,Date`) with no row for (name, today), `mark_attendance`
keeps every stored row unchanged and in place and appends exactly one
new row (name, time, date) at the end. -/
theorem mark_appends_preserving_rows (name : String) (now : Timestamp)
    (rows : List Row) (late : LedgerFile)
    (hnm : markedToday rows name now.dateStr = false) :
    (markAttendance name now
        ⟨LedgerFile.table expectedColumns rows, late⟩).1.main
      = LedgerFile.table expectedColumns (rows ++ [newEntry name now]) := by
  apply markAttendance_main_of_some
    (s := ⟨LedgerFile.table expectedColumns rows, late⟩)
  have hgood : hasExpectedColumns expectedColumns = true := by decide
  simp [mainAfterFormatCheck, hnm, hgood]

/-- Claim C9 witness: marking "Carol" appends after the existing rows,
which are preserved verbatim. -/
theorem mark_appends_preserving_rows_witness :
    (markAttendance "Carol" ⟨8, "08:30:00", "04-01-2024"⟩
        ⟨LedgerFile.table expectedColumns
            [⟨"Alice", "08:00:00", "04-01-2024"⟩,
              ⟨"Bob", "08:10:00", "04-01-2024"⟩], LedgerFile.missing⟩).1.main
      = LedgerFile.table expectedColumns
          [⟨"Alice", "08:00:00", "04-01-2024"⟩,
            ⟨"Bob", "08:10:00", "04-01-2024"⟩,
            ⟨"Carol", "08:30:00", "04-01-2024"⟩] :=
  mark_appends_preserving_rows "Carol" ⟨8, "08:30:00", "04-01-2024"⟩
    [⟨"Alice", "08:00:00", "04-01-2024"⟩, ⟨"Bob", "08:10:00", "04-01-2024"⟩]
    LedgerFile.missing (by decide)

/-- Claim C10: on the already-marked path the function returns before
any write, so both the main and the late ledger files are unchanged and
no late row is appended even when the hour is at or past the cutoff. -/
theorem mark_already_marked_leaves_files (name : String) (now : Timestamp)
    (s : MarkState) (header : List String) (rows : List Row)
    (hmain : s.main = LedgerFile.table header rows)
    (hcols : hasExpectedColumns header = true)
    (hdup : markedToday rows name now.dateStr = true) :
    (markAttendance name now s).1.main = s.main
      ∧ (markAttendance name now s).1.late = s.late
      ∧ (markAttendance name now s).2 = Outcome.alreadyMarked := by
  have h : markAttendance name now s = (s, Outcome.alreadyMarked) :=
    markAttendance_of_none (by simp [mainAfterFormatCheck, hmain, hcols, hdup])
  rw [h]
  exact ⟨rfl, rfl, rfl⟩

/-- Claim C10 witness: a second marking of "Alice" at hour 11 (past the
cutoff) changes neither ledger and adds no late row. -/
theorem mark_already_marked_leaves_files_witness :
    (markAttendance "Alice" ⟨11, "11:00:00", "05-01-2024"⟩
        ⟨LedgerFile.table ["Name", "Time", "Date"]
            [⟨"Alice", "08:00:00", "05-01-2024"⟩],
          LedgerFile.table ["Name", "Time", "Date"] []⟩).1.late
      = LedgerFile.table ["Name", "Time", "Date"] [] :=
  (mark_already_marked_leaves_files "Alice" ⟨11, "11:00:00", "05-01-2024"⟩
    ⟨LedgerFile.table ["Name", "Time", "Date"]
        [⟨"Alice", "08:00:00", "05-01-2024"⟩],
      LedgerFile.table ["Name", "Time", "Date"] []⟩
    ["Name", "Time", "Date"] [⟨"Alice", "08:00:00", "05-01-2024"⟩]
    rfl (by decide) (by decide)).2.1

/-- A captured face sample as appended to `faces_data`: the student name
together with the raw bytes of the 50x50x3 crop. -/
def Sample : Type := String × List Nat

instance : DecidableEq Sample := instDecidableEqProd

/-- The save step of `register_student` in `web_register.py` lines
172-183: insert every captured sample iff at least 20 were collected,
and report success exactly in that case. -/
def webRegisterPersist (facesData db : List Sample) : List Sample × Bool :=
  if 20 ≤ facesData.length then (db ++ facesData, true) else (db, false)

/-- The save step of `student_db_improved.py` (its `if faces_data:`
block followed by `return len(faces_data) > 0`): insert every captured
sample iff at least one was collected, and report success exactly in
that case - there is no 20-sample minimum in this variant. -/
def studentDbImprovedPersist (facesData db : List Sample) : List Sample × Bool :=
  if facesData.isEmpty then (db, false) else (db ++ facesData, true)

/-- Claim C3 counterexample: a registration run of
`student_db_improved.py` that captured only 5 samples (fewer than 20)
persists all 5 of them and reports success, so the claim that every
registration run persists nothing and reports failure below 20 samples
is false on this code. -/
theorem registration_min_counterexample :
    ([(("S", [0]) : Sample), ("S", [1]), ("S", [2]), ("S", [3]),
        ("S", [4])].length < 20)
    ∧ studentDbImprovedPersist
        [("S", [0]), ("S", [1]), ("S", [2]), ("S", [3]), ("S", [4])] []
      = ([("S", [0]), ("S", [1]), ("S", [2]), ("S", [3]), ("S", [4])], true) := by
  constructor
  · decide
  · rfl

/-- Claim C3 amended: `web_register.register_student` refuses to persist
below 20 captured samples and persists all captured samples otherwise;
`student_db_improved.py` persists all captured samples and reports
success whenever at least one was captured, refusing only an empty
capture. -/
theorem registration_persist_policies :
    (∀ facesData db : List Sample, facesData.length < 20 →
        webRegisterPersist facesData db = (db, false))
    ∧ (∀ facesData db : List Sample, 20 ≤ facesData.length →
        webRegisterPersist facesData db = (db ++ facesData, true))
    ∧ (∀ facesData db : List Sample, facesData ≠ [] →
        studentDbImprovedPersist facesData db = (db ++ facesData, true))
    ∧ (∀ db : List Sample, studentDbImprovedPersist [] db = (db, false)) := by
  refine ⟨?_, ?_, ?_, ?_⟩
  · intro facesData db h
    simp [webRegisterPersist, Nat.not_le.mpr h]
  · intro facesData db h
    simp [webRegisterPersist, h]
  · intro facesData db h
    simp [studentDbImprovedPersist, h]
  · intro db
    simp [studentDbImprovedPersist]

/-- Claim C3 amended witness: 19 samples are refused and 20 accepted by
the web-register variant; one sample is accepted by the improved
variant. -/
theorem registration_persist_policies_witness :
    webRegisterPersist (List.replicate 19 (("S", [0]) : Sample)) [] = ([], false)
    ∧ webRegisterPersist (List.replicate 20 (("S", [0]) : Sample)) []
        = (List.replicate 20 ("S", [0]), true)
    ∧ studentDbImprovedPersist [(("S", [0]) : Sample)] [] = ([("S", [0])], true) :=
  ⟨registration_persist_policies.1 (List.replicate 19 ("S", [0])) [] (by decide),
    by
      have h := registration_persist_policies.2.1
        (List.replicate 20 (("S", [0]) : Sample)) [] (by decide)
      rw [h]; rfl,
    registration_persist_policies.2.2.1 [("S", [0])] [] (by decide)⟩

/-- Appending rows to the `faces` table, as done by
`cursor.executemany('INSERT INTO faces (name, face_data) VALUES (?, ?)', faces_data)`
in the registration scripts (for example `student_db.py` lines 106-109). -/
def facesInsertMany (db rows : List Sample) : List Sample := db ++ rows

/-- The retrieval `SELECT name, face_data FROM faces`: every stored row,
in insertion order. -/
def allFaces (db : List Sample) : List Sample := db

/-- The flattening `face_resized.tobytes()` applied to a 50x50x3 pixel
block (rows of pixels of channel bytes) before it is stored as a blob. -/
def toBytes (img : List (List (List Nat))) : List Nat :=
  (img.map List.flatten).flatten

/-- Splitting a flat buffer into `n` consecutive chunks of exactly `k`
elements each, failing when the lengths do not line up; this is one axis
of `np.frombuffer(face_data, dtype=np.uint8).reshape(50, 50, 3)`. -/
def chunkExact {α : Type} : Nat → Nat → List α → Option (List (List α))
  | 0, _, l => if l.isEmpty then some [] else none
  | n + 1, k, l =>
      if (l.take k).length = k then
        (chunkExact n k (l.drop k)).map (fun cs => l.take k :: cs)
      else none

/-- Option-valued map over a list, failing when any element fails. -/
def mapMO {α β : Type} (f : α → Option β) : List α → Option (List β)
  | [] => some []
  | a :: l =>
      match f a, mapMO f l with
      | some b, some bs => some (b :: bs)
      | _, _ => none

/-- The full `reshape(50, 50, 3)` of a stored blob back into 50 rows of
50 pixels of 3 channel bytes, as performed when the training code reads
the face store back (`main_improved.py` line 94). -/
def reshape5050 (b : List Nat) : Option (List (List (List Nat))) :=
  match chunkExact 50 150 b with
  | none => none
  | some rows => mapMO (chunkExact 50 3) rows

/-- A pixel block has the 50x50x3 shape the scripts store. -/
def wellShaped (img : List (List (List Nat))) : Bool :=
  img.length == 50 &&
    img.all (fun row => row.length == 50 && row.all (fun px => px.length == 3))

lemma flatten_length_const {α : Type} :
    ∀ (l : List (List α)) (k : Nat), (∀ x ∈ l, x.length = k) →
      l.flatten.length = l.length * k := by
  intro l k h
  induction l with
  | nil => simp
  | cons a t ih =>
      simp only [List.flatten_cons, List.length_append, List.length_cons]
      rw [h a (List.mem_cons_self a t), ih (fun x hx => h x (List.mem_cons_of_mem a hx))]
      ring

lemma chunkExact_flatten {α : Type} :
    ∀ (ls : List (List α)) (k : Nat), (∀ x ∈ ls, x.length = k) →
      chunkExact ls.length k ls.flatten = some ls := by
  intro ls
  induction ls with
  | nil => intro k _; rfl
  | cons a t ih =>
      intro k h
      have ha : a.length = k := h a (List.mem_cons_self a t)
      have htake : (a ++ t.flatten).take k = a := by
        rw [← ha]; exact List.take_left a t.flatten
      have hdrop : (a ++ t.flatten).drop k = t.flatten := by
        rw [← ha]; exact List.drop_left a t.flatten
      simp [List.length_cons, List.flatten_cons, chunkExact, htake, hdrop, ha,
        ih k (fun x hx => h x (List.mem_cons_of_mem a hx))]

lemma mapMO_map_section {α β : Type} (f : α → Option β) (g : β → α) :
    ∀ (l : List β), (∀ x ∈ l, f (g x) = some x) →
      mapMO f (l.map g) = some l := by
  intro l
  induction l with
  | nil => intro _; rfl
  | cons a t ih =>
      intro h
      simp only [List.map_cons, mapMO, h a (List.mem_cons_self a t),
        ih (fun x hx => h x (List.mem_cons_of_mem a hx))]

/-- Claim C6: a well-shaped 50x50x3 pixel block that is flattened to
bytes, inserted into the face store, and read back by the training code
is recovered exactly: the stored row holds the inserted bytes and the
`reshape(50, 50, 3)` of those bytes is the original pixel block. -/
theorem face_store_roundtrip (db : List Sample) (name : String)
    (img : List (List (List Nat))) (h : wellShaped img = true) :
    (name, toBytes img) ∈ allFaces (facesInsertMany db [(name, toBytes img)])
    ∧ reshape5050 (toBytes img) = some img := by
  have hlen : img.length = 50 ∧ ∀ row ∈ img, row.length = 50 ∧
      ∀ px ∈ row, px.length = 3 := by
    simp only [wellShaped, Bool.and_eq_true, beq_iff_eq, List.all_eq_true] at h
    exact ⟨h.1, fun row hr => ⟨(h.2 row hr).1, (h.2 row hr).2⟩⟩
  constructor
  · simp [allFaces, facesInsertMany]
  ·
    have hrowlen : ∀ x ∈ img.map List.flatten, x.length = 150 := by
      intro x hx
      rcases List.mem_map.mp hx with ⟨row, hr, hEq⟩
      rw [← hEq]
      rw [flatten_length_const row 3 (hlen.2 row hr).2, (hlen.2 row hr).1]
    have h1 : chunkExact 50 150 (toBytes img) = some (img.map List.flatten) := by
      have := chunkExact_flatten (img.map List.flatten) 150 hrowlen
      rwa [List.length_map, hlen.1] at this
    have h2 : mapMO (chunkExact 50 3) (img.map List.flatten) = some img := by
      apply mapMO_map_section
      intro row hr
      have := chunkExact_flatten row 3 (hlen.2 row hr).2
      rwa [(hlen.2 row hr).1] at this
    simp [reshape5050, h1, h2]

/-- Claim C6 witness: a concrete all-black 50x50x3 block round-trips
through the store and the reshape. -/
theorem face_store_roundtrip_witness :
    wellShaped (List.replicate 50 (List.replicate 50 [0, 0, 0])) = true
    ∧ (("S", toBytes (List.replicate 50 (List.replicate 50 [0, 0, 0]))) ∈
        allFaces (facesInsertMany []
          [("S", toBytes (List.replicate 50 (List.replicate 50 [0, 0, 0])))])
      ∧ reshape5050 (toBytes (List.replicate 50 (List.replicate 50 [0, 0, 0])))
          = some (List.replicate 50 (List.replicate 50 [0, 0, 0]))) :=
  have h : wellShaped (List.replicate 50 (List.replicate 50 [0, 0, 0])) = true := by
    simp [wellShaped, List.all_eq_true, List.mem_replicate]
  ⟨h, face_store_roundtrip [] "S" (List.replicate 50 (List.replicate 50 [0, 0, 0])) h⟩

/-- The adaptive confidence threshold of `main_improved.py` line 275:
`base + (max - base) * (1 - min(face_area / 10000, 1))` with base 150
and max 200, over exact rational arithmetic. -/
def adaptiveThreshold (faceArea : ℚ) : ℚ :=
  150 + (200 - 150) * (1 - min (faceArea / 10000) 1)

/-- The acceptance test of `main_improved.py` line 277:
`recognized = confidence < adaptive_threshold and label in label_names`,
with the label-to-name dictionary as an association list. -/
def recognizedImproved (labelNames : List (Nat × String)) (label : Nat)
    (confidence faceArea : ℚ) : Bool :=
  decide (confidence < adaptiveThreshold faceArea)
    && (List.lookup label labelNames).isSome

/-- The acceptance test of `main_simplified.py` line 244:
`confidence < confidence_threshold and label in label_names` with the
fixed threshold 150. -/
def recognizedSimplified (labelNames : List (Nat × String)) (label : Nat)
    (confidence : ℚ) : Bool :=
  decide (confidence < 150) && (List.lookup label labelNames).isSome

/-- The `recognition_cooldown = 10` seconds of the improved variants. -/
def recognitionCooldown : Nat := 10

/-- The `.seconds` attribute of the nonnegative timedelta between two
timestamps given in whole seconds: the elapsed seconds modulo one day. -/
def deltaSeconds (last t : Nat) : Nat := (t - last) % 86400

/-- The cooldown test of `main_improved.py` lines 300-301:
`name not in last_recognition_time or
(current_time - last_recognition_time[name]).seconds > recognition_cooldown`. -/
def shouldMark (m : String → Option Nat) (name : String) (t : Nat) : Bool :=
  match m name with
  | none => true
  | some last => decide (recognitionCooldown < deltaSeconds last t)

/-- `last_recognition_time[name] = current_time`. -/
def updateLast (m : String → Option Nat) (name : String) (t : Nat) :
    String → Option Nat :=
  fun n => if n = name then some t else m n

/-- What the capture loop does with one detected face: mark attendance,
suppress a repeat within the cooldown, or treat the face as unknown. -/
inductive FaceAction where
  | marked : FaceAction
  | suppressed : FaceAction
  | unknown : FaceAction
deriving DecidableEq

/-- Per-face processing of `main_improved.py` lines 270-305: the face is
accepted iff `recognized` holds; an accepted face is marked unless the
cooldown map suppresses it; a rejected face is labelled unknown and no
attendance call is made. -/
def processFaceImproved (labelNames : List (Nat × String))
    (m : String → Option Nat) (label : Nat) (confidence faceArea : ℚ)
    (t : Nat) : FaceAction × (String → Option Nat) :=
  if recognizedImproved labelNames label confidence faceArea then
    match List.lookup label labelNames with
    | some name =>
        if shouldMark m name t then (FaceAction.marked, updateLast m name t)
        else (FaceAction.suppressed, m)
    | none => (FaceAction.unknown, m)
  else (FaceAction.unknown, m)

/-- Per-face processing of `main_simplified.py` lines 238-256, with its
fixed threshold. -/
def processFaceSimplified (labelNames : List (Nat × String))
    (m : String → Option Nat) (label : Nat) (confidence : ℚ)
    (t : Nat) : FaceAction × (String → Option Nat) :=
  if recognizedSimplified labelNames label confidence then
    match List.lookup label labelNames with
    | some name =>
        if shouldMark m name t then (FaceAction.marked, updateLast m name t)
        else (FaceAction.suppressed, m)
    | none => (FaceAction.unknown, m)
  else (FaceAction.unknown, m)

/-- Claim C7: in both capture-loop variants a detected face is accepted
as a recognition iff the confidence is strictly below the (adaptive or
fixed) threshold and the label maps to a known name; a face that fails
the test is treated as unknown, leaves the cooldown map alone, and never
triggers an attendance mark, while a mark only ever happens for an
accepted face. -/
theorem recognition_accept_iff :
    (∀ (ln : List (Nat × String)) (label : Nat) (conf area : ℚ),
        recognizedImproved ln label conf area = true ↔
          (conf < adaptiveThreshold area ∧ ∃ n, List.lookup label ln = some n))
    ∧ (∀ (ln : List (Nat × String)) (label : Nat) (conf : ℚ),
        recognizedSimplified ln label conf = true ↔
          (conf < 150 ∧ ∃ n, List.lookup label ln = some n))
    ∧ (∀ ln m label (conf area : ℚ) t,
        recognizedImproved ln label conf area = false →
          (processFaceImproved ln m label conf area t).1 = FaceAction.unknown
            ∧ (processFaceImproved ln m label conf area t).2 = m)
    ∧ (∀ ln m label (conf area : ℚ) t,
        (processFaceImproved ln m label conf area t).1 = FaceAction.marked →
          recognizedImproved ln label conf area = true)
    ∧ (∀ ln m label (conf : ℚ) t,
        recognizedSimplified ln label conf = false →
          (processFaceSimplified ln m label conf t).1 = FaceAction.unknown
            ∧ (processFaceSimplified ln m label conf t).2 = m)
    ∧ (∀ ln m label (conf : ℚ) t,
        (processFaceSimplified ln m label conf t).1 = FaceAction.marked →
          recognizedSimplified ln label conf = true) := by
  refine ⟨?_, ?_, ?_, ?_, ?_, ?_⟩
  · intro ln label conf area
    simp [recognizedImproved, Option.isSome_iff_exists]
  · intro ln label conf
    simp [recognizedSimplified, Option.isSome_iff_exists]
  · intro ln m label conf area t h
    simp [processFaceImproved, h]
  · intro ln m label conf area t h
    by_contra hrec
    rw [Bool.not_eq_true] at hrec
    simp [processFaceImproved, hrec] at h
  · intro ln m label conf t h
    simp [processFaceSimplified, h]
  · intro ln m label conf t h
    by_contra hrec
    rw [Bool.not_eq_true] at hrec
    simp [processFaceSimplified, hrec] at h

/-- Claim C7 witness: with only label 0 registered, label 0 at low
confidence is accepted; an unregistered label 5 is rejected by the
improved variant and leaves the map alone. -/
theorem recognition_accept_iff_witness :
    recognizedImproved [(0, "Alice")] 0 100 10000 = true
    ∧ ((processFaceImproved [(0, "Alice")] (fun _ => none) 5 100 10000 0).1
          = FaceAction.unknown
        ∧ (processFaceImproved [(0, "Alice")] (fun _ => none) 5 100 10000 0).2
          = (fun _ => none)) :=
  ⟨(recognition_accept_iff.1 [(0, "Alice")] 0 100 10000).mpr
      ⟨by norm_num [adaptiveThreshold], "Alice", rfl⟩,
    recognition_accept_iff.2.2.1 [(0, "Alice")] (fun _ => none) 5 100 10000 0
      (by simp [recognizedImproved])⟩

/-- One step of the cooldown bookkeeping in the capture loop: if the
test passes, attendance is marked and the per-name timestamp is stored,
otherwise the map is unchanged. -/
def stepOne (m : String → Option Nat) (e : String × Nat) :
    String → Option Nat :=
  if shouldMark m e.1 e.2 then updateLast m e.1 e.2 else m

/-- The mark/suppress decision made for each recognition event of a
trace, processed in order. -/
def decisions (m : String → Option Nat) : List (String × Nat) → List Bool
  | [] => []
  | e :: es => shouldMark m e.1 e.2 :: decisions (stepOne m e) es

/-- The cooldown map after a trace of recognition events. -/
def finalMap (m : String → Option Nat) (es : List (String × Nat)) :
    String → Option Nat :=
  es.foldl stepOne m

lemma finalMap_cons (m : String → Option Nat) (e : String × Nat)
    (es : List (String × Nat)) :
    finalMap m (e :: es) = finalMap (stepOne m e) es := rfl

lemma decisions_append (l₁ l₂ : List (String × Nat)) :
    ∀ m, decisions m (l₁ ++ l₂)
      = decisions m l₁ ++ decisions (finalMap m l₁) l₂ := by
  induction l₁ with
  | nil => intro m; rfl
  | cons e t ih =>
      intro m
      rw [List.cons_append]
      simp only [decisions, finalMap_cons]
      rw [ih (stepOne m e)]
      rfl

lemma updateLast_self (m : String → Option Nat) (name : String) (t : Nat) :
    updateLast m name t name = some t := by
  simp [updateLast]

lemma stepOne_other {m : String → Option Nat} {e : String × Nat}
    {name : String} (h : e.1 ≠ name) : stepOne m e name = m name := by
  unfold stepOne
  by_cases hs : shouldMark m e.1 e.2
  · simp only [hs, if_true, updateLast]
    rw [if_neg (fun hEq => h hEq.symm)]
  · simp [hs]

/-- While every same-name event of a trace stays within the cooldown
window of the recorded mark, the map entry for that name is not
overwritten. -/
lemma entry_stable :
    ∀ (mid : List (String × Nat)) (m : String → Option Nat)
      (name : String) (t : Nat),
      m name = some t →
      (∀ e ∈ mid, e.1 = name → (t ≤ e.2 ∧ e.2 - t ≤ recognitionCooldown)) →
      finalMap m mid name = some t := by
  intro mid
  induction mid with
  | nil => intro m name t hm _; exact hm
  | cons e rest ih =>
      intro m name t hm h
      rw [finalMap_cons]
      by_cases he : e.1 = name
      · have hw := h e (List.mem_cons_self e rest) he
        have hdelta : deltaSeconds t e.2 = e.2 - t := by
          unfold deltaSeconds
          exact Nat.mod_eq_of_lt (lt_of_le_of_lt hw.2 (by decide))
        have hsm : shouldMark m e.1 e.2 = false := by
          unfold shouldMark
          rw [he, hm]
          show decide (recognitionCooldown < deltaSeconds t e.2) = false
          rw [hdelta]
          exact decide_eq_false (Nat.not_lt.mpr hw.2)
        have hstep : stepOne m e = m := by simp [stepOne, hsm]
        rw [hstep]
        exact ih m name t hm
          (fun x hx hn => h x (List.mem_cons_of_mem e hx) hn)
      · have hstep : stepOne m e name = m name := stepOne_other he
        exact ih (stepOne m e) name t (hstep.trans hm)
          (fun x hx hn => h x (List.mem_cons_of_mem e hx) hn)

/-- Claim C8: once the capture loop marks attendance for a name at time
`t`, every later recognition of the same name whose timestamp lies
within the 10-second cooldown window is suppressed and makes no
attendance call, whatever other recognitions (of any name, inside the
same window) happen in between. -/
theorem cooldown_window_suppression (m : String → Option Nat)
    (name : String) (t : Nat) (mid : List (String × Nat)) (t' : Nat)
    (hmark : shouldMark m name t = true)
    (hmono : ∀ e ∈ mid, t ≤ e.2 ∧ e.2 ≤ t')
    (ht : t ≤ t') (hw : t' - t ≤ recognitionCooldown) :
    decisions m ((name, t) :: (mid ++ [(name, t')]))
      = true :: (decisions (updateLast m name t) mid ++ [false]) := by
  have hstep : stepOne m (name, t) = updateLast m name t := by
    simp [stepOne, hmark]
  have hstable : finalMap (updateLast m name t) mid name = some t := by
    apply entry_stable mid (updateLast m name t) name t
      (updateLast_self m name t)
    intro e he _
    exact ⟨(hmono e he).1,
      le_trans (Nat.sub_le_sub_right (hmono e he).2 t) hw⟩
  have hdelta : deltaSeconds t t' = t' - t := by
    unfold deltaSeconds
    exact Nat.mod_eq_of_lt (lt_of_le_of_lt hw (by decide))
  have hfinal : shouldMark (finalMap (updateLast m name t) mid) name t'
      = false := by
    unfold shouldMark
    rw [hstable]
    show decide (recognitionCooldown < deltaSeconds t t') = false
    rw [hdelta]
    exact decide_eq_false (Nat.not_lt.mpr hw)
  simp only [decisions, hmark, hstep, decisions_append, hfinal]

/-- Claim C8 witness: after marking "Alice" at second 100, with "Bob"
recognized at 102 in between, the repeat recognition of "Alice" at
second 105 (within the 10-second window) is suppressed. -/
theorem cooldown_window_suppression_witness :
    decisions (fun _ => none)
        [("Alice", 100), ("Bob", 102), ("Alice", 105)]
      = true :: (decisions (updateLast (fun _ => none) "Alice" 100)
          [("Bob", 102)] ++ [false]) :=
  cooldown_window_suppression (fun _ => none) "Alice" 100 [("Bob", 102)] 105
    rfl (by decide) (by decide) (by decide)

/-- One step of building the `student_faces` dictionary in
`main_improved.py` lines 87-97: a python dict keeps keys in insertion
order and the loop appends the sample to the list of its name. -/
def groupInsert {α : Type} : List (String × List α) → String → α → List (String × List α)
  | [], name, f => [(name, [f])]
  | (n, fs) :: rest, name, f =>
      if n = name then (n, fs ++ [f]) :: rest
      else (n, fs) :: groupInsert rest name f

/-- The full `student_faces` dictionary built from the query result. -/
def groupByName {α : Type} (data : List (String × α)) : List (String × List α) :=
  data.foldl (fun gs nf => groupInsert gs nf.1 nf.2) []

/-- The label-assignment loop of `main_improved.py` lines 99-111 started
at counter `i`: every group gets the next sequential label, each of its
samples is pushed with that label, and `label_names[label] = name`. -/
def buildLabels {α : Type} : Nat → List (String × List α) → List (α × Nat) × List (Nat × String)
  | _, [] => ([], [])
  | i, (n, fs) :: rest =>
      let p := buildLabels (i + 1) rest
      (fs.map (fun f => (f, i)) ++ p.1, (i, n) :: p.2)

/-- The whole trainer preparation of `main_improved.py`: group by name,
then assign sequential labels starting from 0. -/
def improvedTraining {α : Type} (data : List (String × α)) :
    List (α × Nat) × List (Nat × String) :=
  buildLabels 0 (groupByName data)

/-- The trainer preparation of `main_simplified.py` lines 62-78: the
loop increments `label_id` once per ROW of the query result, so every
sample receives its own label regardless of its name. -/
def simplifiedLabels {α : Type} : Nat → List (String × α) → List (α × Nat) × List (Nat × String)
  | _, [] => ([], [])
  | i, (n, f) :: rest =>
      let p := simplifiedLabels (i + 1) rest
      ((f, i) :: p.1, (i, n) :: p.2)

/-- The simplified trainer preparation started at label 0. -/
def simplifiedTraining {α : Type} (data : List (String × α)) :
    List (α × Nat) × List (Nat × String) :=
  simplifiedLabels 0 data

/-- All samples stored for one name, in insertion order. -/
def samplesOf {α : Type} (name : String) : List (String × α) → List α
  | [] => []
  | (n, f) :: rest =>
      if n = name then f :: samplesOf name rest else samplesOf name rest

/-- Looking a name up in the grouping dictionary. -/
def lookupG {α : Type} : List (String × List α) → String → List α
  | [], _ => []
  | (n, fs) :: rest, name => if n = name then fs else lookupG rest name

lemma groupInsert_keys {α : Type} :
    ∀ (gs : List (String × List α)) (name : String) (f : α),
      (groupInsert gs name f).map Prod.fst
        = if name ∈ gs.map Prod.fst then gs.map Prod.fst
          else gs.map Prod.fst ++ [name] := by
  intro gs name f
  induction gs with
  | nil => simp [groupInsert]
  | cons g rest ih =>
      obtain ⟨n, fs⟩ := g
      by_cases hn : n = name
      · subst hn
        simp [groupInsert]
      · simp only [groupInsert, if_neg hn, List.map_cons]
        rw [ih]
        by_cases hmem : name ∈ rest.map Prod.fst
        · simp [hmem, Ne.symm hn]
        · simp [hmem, Ne.symm hn]

lemma groupInsert_keys_nodup {α : Type} {gs : List (String × List α)}
    (h : (gs.map Prod.fst).Nodup) (name : String) (f : α) :
    ((groupInsert gs name f).map Prod.fst).Nodup := by
  rw [groupInsert_keys]
  by_cases hmem : name ∈ gs.map Prod.fst
  · simpa [hmem] using h
  · simp only [hmem, if_false]
    exact List.Nodup.append h (List.nodup_singleton _)
      (by simpa [List.disjoint_singleton] using hmem)

lemma groupByName_keys_nodup {α : Type} (data : List (String × α)) :
    ((groupByName data).map Prod.fst).Nodup := by
  have h : ∀ (l : List (String × α)) (gs : List (String × List α)),
      (gs.map Prod.fst).Nodup →
      ((l.foldl (fun gs nf => groupInsert gs nf.1 nf.2) gs).map Prod.fst).Nodup := by
    intro l
    induction l with
    | nil => intro gs hgs; exact hgs
    | cons nf rest ih =>
        intro gs hgs
        exact ih (groupInsert gs nf.1 nf.2) (groupInsert_keys_nodup hgs nf.1 nf.2)
  exact h data [] (by simp)

lemma lookupG_groupInsert {α : Type} :
    ∀ (gs : List (String × List α)) (m n : String) (f : α),
      lookupG (groupInsert gs m f) n
        = if n = m then lookupG gs n ++ [f] else lookupG gs n := by
  intro gs m n f
  induction gs with
  | nil =>
      by_cases h : n = m
      · subst h
        simp [groupInsert, lookupG]
      · have h' : ¬ m = n := fun hEq => h hEq.symm
        simp [groupInsert, lookupG, h, h']
  | cons g rest ih =>
      obtain ⟨k, fs⟩ := g
      by_cases hk : k = m
      · subst hk
        by_cases hn : k = n
        · subst hn
          simp [groupInsert, lookupG]
        · have hn' : ¬ n = k := fun hEq => hn hEq.symm
          simp [groupInsert, lookupG, hn, hn']
      · by_cases hn : k = n
        · subst hn
          simp [groupInsert, lookupG, hk]
        · simp [groupInsert, lookupG, hk, hn, ih]

lemma groupByName_lookup_aux {α : Type} :
    ∀ (data : List (String × α)) (gs : List (String × List α)) (n : String),
      lookupG (data.foldl (fun gs nf => groupInsert gs nf.1 nf.2) gs) n
        = lookupG gs n ++ samplesOf n data := by
  intro data
  induction data with
  | nil => intro gs n; simp [samplesOf]
  | cons nf rest ih =>
      intro gs n
      obtain ⟨nm, f⟩ := nf
      simp only [List.foldl_cons]
      rw [ih (groupInsert gs nm f) n, lookupG_groupInsert]
      by_cases h : n = nm
      · subst h
        simp [samplesOf]
      · have h' : ¬ nm = n := fun hEq => h hEq.symm
        simp [samplesOf, h, h']

/-- The grouping dictionary maps every name to exactly its samples, in
order. -/
lemma groupByName_lookup {α : Type} (data : List (String × α)) (n : String) :
    lookupG (groupByName data) n = samplesOf n data := by
  have h := groupByName_lookup_aux data [] n
  simpa [lookupG] using h

lemma mem_lookupG {α : Type} :
    ∀ (gs : List (String × List α)) (n : String) (fs : List α),
      (gs.map Prod.fst).Nodup → (n, fs) ∈ gs → lookupG gs n = fs := by
  intro gs
  induction gs with
  | nil => intro n fs _ h; cases h
  | cons g rest ih =>
      intro n fs hnd hmem
      obtain ⟨k, ks⟩ := g
      rcases List.mem_cons.mp hmem with hEq | htail
      · cases hEq
        simp [lookupG]
      · have hk : k ≠ n := by
          intro hEq
          subst hEq
          have : k ∈ rest.map Prod.fst :=
            List.mem_map.mpr ⟨(k, fs), htail, rfl⟩
          exact (List.nodup_cons.mp hnd).1 this
        simp only [lookupG, if_neg hk]
        exact ih n fs (List.nodup_cons.mp hnd).2 htail

lemma buildLabels_labels_snd {α : Type} :
    ∀ (i : Nat) (gs : List (String × List α)),
      ((buildLabels i gs).2).map Prod.snd = gs.map Prod.fst := by
  intro i gs
  induction gs generalizing i with
  | nil => rfl
  | cons g rest ih =>
      obtain ⟨n, fs⟩ := g
      simp [buildLabels, ih (i + 1)]

lemma buildLabels_labels_fst {α : Type} :
    ∀ (i : Nat) (gs : List (String × List α)),
      ((buildLabels i gs).2).map Prod.fst = List.range' i gs.length := by
  intro i gs
  induction gs generalizing i with
  | nil => rfl
  | cons g rest ih =>
      obtain ⟨n, fs⟩ := g
      simp [buildLabels, ih (i + 1), List.range']

lemma buildLabels_inj {α : Type} :
    ∀ (i : Nat) (gs : List (String × List α)),
      (gs.map Prod.fst).Nodup →
      ∀ p ∈ (buildLabels i gs).2, ∀ q ∈ (buildLabels i gs).2,
        p.2 = q.2 → p.1 = q.1 := by
  intro i gs
  induction gs generalizing i with
  | nil => intro _ p hp; cases hp
  | cons g rest ih =>
      intro hnd p hp q hq hpq
      obtain ⟨n, fs⟩ := g
      have hnotin : n ∉ rest.map Prod.fst := (List.nodup_cons.mp hnd).1
      have htail : (rest.map Prod.fst).Nodup := (List.nodup_cons.mp hnd).2
      have hsnd : ((buildLabels (i + 1) rest).2).map Prod.snd
          = rest.map Prod.fst := buildLabels_labels_snd (i + 1) rest
      simp only [buildLabels, List.mem_cons] at hp hq
      rcases hp with hp | hp <;> rcases hq with hq | hq
      · rw [hp, hq]
      · exfalso
        apply hnotin
        rw [← hsnd]
        have : q.2 = n := by rw [← hpq, hp]
        exact this ▸ List.mem_map.mpr ⟨q, hq, rfl⟩
      · exfalso
        apply hnotin
        rw [← hsnd]
        have : p.2 = n := by rw [hpq, hq]
        exact this ▸ List.mem_map.mpr ⟨p, hp, rfl⟩
      · exact ih (i + 1) htail p hp q hq hpq

lemma buildLabels_pairs {α : Type} :
    ∀ (i : Nat) (gs : List (String × List α)) (n : String) (fs : List α),
      (n, fs) ∈ gs →
      ∃ l, (l, n) ∈ (buildLabels i gs).2
        ∧ ∀ f ∈ fs, (f, l) ∈ (buildLabels i gs).1 := by
  intro i gs
  induction gs generalizing i with
  | nil => intro n fs h; cases h
  | cons g rest ih =>
      intro n fs hmem
      obtain ⟨k, ks⟩ := g
      rcases List.mem_cons.mp hmem with hEq | htail
      · cases hEq
        refine ⟨i, List.mem_cons_self _ _, ?_⟩
        intro f hf
        simp only [buildLabels]
        exact List.mem_append_left _ (List.mem_map.mpr ⟨f, hf, rfl⟩)
      · obtain ⟨l, hl, hfs⟩ := ih (i + 1) n fs htail
        refine ⟨l, List.mem_cons_of_mem _ hl, ?_⟩
        intro f hf
        simp only [buildLabels]
        exact List.mem_append_right _ (hfs f hf)

/-- Claim C5 counterexample: on the face store
`[("alice", s0), ("alice", s1)]` the `main_simplified.py` trainer (one
of the claim's cited code sites) assigns label 0 to the first sample and
label 1 to the second, so the two samples of the same person are trained
under different labels and the label-to-name mapping sends the two
distinct labels 0 and 1 to the same name - the claimed grouping and
injectivity fail on this variant. -/
theorem simplified_trainer_counterexample :
    (simplifiedTraining [("alice", (0 : Nat)), ("alice", 1)]).2
        = [(0, "alice"), (1, "alice")]
    ∧ (simplifiedTraining [("alice", (0 : Nat)), ("alice", 1)]).1
        = [(0, 0), (1, 1)]
    ∧ ¬ (∀ p ∈ (simplifiedTraining [("alice", (0 : Nat)), ("alice", 1)]).2,
          ∀ q ∈ (simplifiedTraining [("alice", (0 : Nat)), ("alice", 1)]).2,
            p.2 = q.2 → p.1 = q.1) := by
  refine ⟨rfl, rfl, ?_⟩
  intro h
  have h01 := h (0, "alice") (by simp [simplifiedTraining, simplifiedLabels])
    (1, "alice") (by simp [simplifiedTraining, simplifiedLabels]) rfl
  simp at h01

/-- Claim C5 amended: the `main_improved.py` trainer groups the samples
by name and assigns each distinct name exactly one sequential label
starting from 0, the label-to-name mapping is injective, and every
stored sample of a person is trained under that person's single label;
the `main_simplified.py` trainer instead gives every row its own label
(see the counterexample). -/
theorem improved_trainer_grouping :
    (∀ (α : Type) (data : List (String × α)),
        ((improvedTraining data).2).map Prod.fst
            = List.range' 0 (groupByName data).length
          ∧ ((improvedTraining data).2).map Prod.snd
            = (groupByName data).map Prod.fst)
    ∧ (∀ (α : Type) (data : List (String × α)),
        ∀ p ∈ (improvedTraining data).2, ∀ q ∈ (improvedTraining data).2,
          p.2 = q.2 → p.1 = q.1)
    ∧ (∀ (α : Type) (data : List (String × α)) (n : String) (l : Nat),
        (l, n) ∈ (improvedTraining data).2 →
          ∀ f ∈ samplesOf n data, (f, l) ∈ (improvedTraining data).1) := by
  refine ⟨?_, ?_, ?_⟩
  · intro α data
    exact ⟨buildLabels_labels_fst 0 (groupByName data),
      buildLabels_labels_snd 0 (groupByName data)⟩
  · intro α data
    exact buildLabels_inj 0 (groupByName data) (groupByName_keys_nodup data)
  · intro α data n l hl f hf
    have hnkey : n ∈ (groupByName data).map Prod.fst := by
      rw [← buildLabels_labels_snd 0 (groupByName data)]
      exact List.mem_map.mpr ⟨(l, n), hl, rfl⟩
    have hex : ∃ fs, (n, fs) ∈ groupByName data := by
      rcases List.mem_map.mp hnkey with ⟨g, hg, hgn⟩
      exact ⟨g.2, by rw [← hgn]; simpa using hg⟩
    obtain ⟨fs, hg⟩ := hex
    have hfs : fs = samplesOf n data := by
      rw [← mem_lookupG (groupByName data) n fs
          (groupByName_keys_nodup data) hg]
      exact groupByName_lookup data n
    obtain ⟨l', hl', hpairs⟩ := buildLabels_pairs 0 (groupByName data) n fs hg
    have hll : l = l' :=
      buildLabels_inj 0 (groupByName data) (groupByName_keys_nodup data)
        (l, n) hl (l', n) hl' rfl
    subst hll
    exact hpairs f (hfs ▸ hf)

/-- Claim C5 amended witness: on a concrete store with two people,
"alice" gets the single label 0 and both of her samples are trained
under it. -/
theorem improved_trainer_grouping_witness :
    ((improvedTraining [("alice", (10 : Nat)), ("bob", 20), ("alice", 30)]).2).map
        Prod.fst
        = List.range' 0
            (groupByName [("alice", (10 : Nat)), ("bob", 20), ("alice", 30)]).length
    ∧ (10, 0) ∈ (improvedTraining
        [("alice", (10 : Nat)), ("bob", 20), ("alice", 30)]).1
    ∧ (30, 0) ∈ (improvedTraining
        [("alice", (10 : Nat)), ("bob", 20), ("alice", 30)]).1 :=
  have hmem : ((0 : Nat), "alice") ∈ (improvedTraining
      [("alice", (10 : Nat)), ("bob", 20), ("alice", 30)]).2 := by
    simp [improvedTraining, groupByName, groupInsert, buildLabels]
  ⟨(improved_trainer_grouping.1 Nat
      [("alice", 10), ("bob", 20), ("alice", 30)]).1,
    improved_trainer_grouping.2.2 Nat
      [("alice", 10), ("bob", 20), ("alice", 30)] "alice" 0 hmem 10
      (by simp [samplesOf]),
    improved_trainer_grouping.2.2 Nat
      [("alice", 10), ("bob", 20), ("alice", 30)] "alice" 0 hmem 30
      (by simp [samplesOf])⟩

end FaceAttendance
